import Mathlib

/-!
Formal model of the repository file `src/modules/attention.py`.

This file gives a shallow embedding, over exact rational arithmetic, of the
neural-network modules defined in `src/modules/attention.py`:

* the spatial reshaping utilities `window_partition`, `window_unpartition`,
  `spatial_flatten`, `spatial_unflatten`;
* `MultiHeadSelfAttention` (standard and transposed formulations);
* `AttentionBlock` (windowed and full-map variants);
* `TransformerSR` (block-pair loop with periodic residual buffers, pixel
  shuffle upsampling);
* `Classifier` (staged block groups with downsampling).

Tensors of a fixed shape are embedded as curried functions on `Fin` index
types with rational entries; `reshape`, `permute`, `transpose` and `flatten`
become explicit index bookkeeping through the row-major pairing bijection
`finPair` / `finUnpair`.  The transcendental scalar primitives used by the
framework (`exp` inside softmax, the GELU activation, and the reciprocal
square root inside layer normalisation) are abstracted as an arbitrary
`Scalars` record of rational functions, so every definition stays executable
and every theorem quantifying over `Scalars` holds in particular for the
true real-valued primitives.  Python integer arithmetic on indices is `Nat`
arithmetic.
-/

set_option maxHeartbeats 1000000

/-- Rank-4 feature map `(B, C, H, W)`. -/
abbrev Img (B C H W : ℕ) := Fin B → Fin C → Fin H → Fin W → ℚ

/-- Rank-4 attention-ready sequence tensor `(B, N, L, C)`. -/
abbrev Seq4 (B N L C : ℕ) := Fin B → Fin N → Fin L → Fin C → ℚ

/-- Rank-5 windowed tensor `(B, N, C, H, W)`. -/
abbrev Win5 (B N C H W : ℕ) := Fin B → Fin N → Fin C → Fin H → Fin W → ℚ

/-- Row-major merge of two indices: position of `(i, j)` in the flattening of
an `(m, n)` index pair, as produced by `Tensor.reshape`. -/
def finPair {m n : ℕ} (i : Fin m) (j : Fin n) : Fin (m * n) :=
  ⟨i.1 * n + j.1, by
    have h1 : i.1 + 1 ≤ m := i.2
    have h2 : j.1 < n := j.2
    calc i.1 * n + j.1 < i.1 * n + n := by omega
      _ = (i.1 + 1) * n := by ring
      _ ≤ m * n := Nat.mul_le_mul_right n h1⟩

/-- A `Fin (m * n)` index is only inhabited when `n` is positive. -/
theorem fin_mul_pos_right {m n : ℕ} (k : Fin (m * n)) : 0 < n := by
  rcases Nat.eq_zero_or_pos n with h | h
  · subst h
    exact absurd k.2 (by simp)
  · exact h

/-- Row-major split of a flat index over an `(m, n)` index pair, as produced
by `Tensor.reshape` in the unflattening direction. -/
def finUnpair {m n : ℕ} (k : Fin (m * n)) : Fin m × Fin n :=
  ⟨⟨k.1 / n, (Nat.div_lt_iff_lt_mul (fin_mul_pos_right k)).2 k.2⟩,
   ⟨k.1 % n, Nat.mod_lt _ (fin_mul_pos_right k)⟩⟩

@[simp]
theorem finUnpair_finPair_fst {m n : ℕ} (i : Fin m) (j : Fin n) :
    (finUnpair (finPair i j)).1 = i := by
  apply Fin.ext
  show (i.1 * n + j.1) / n = i.1
  rw [Nat.add_comm, Nat.add_mul_div_right _ _ (Nat.lt_of_le_of_lt (Nat.zero_le _) j.2),
    Nat.div_eq_of_lt j.2, Nat.zero_add]

@[simp]
theorem finUnpair_finPair_snd {m n : ℕ} (i : Fin m) (j : Fin n) :
    (finUnpair (finPair i j)).2 = j := by
  apply Fin.ext
  show (i.1 * n + j.1) % n = j.1
  rw [Nat.add_comm, Nat.add_mul_mod_self_right, Nat.mod_eq_of_lt j.2]

@[simp]
theorem finPair_finUnpair {m n : ℕ} (k : Fin (m * n)) :
    finPair (finUnpair k).1 (finUnpair k).2 = k := by
  apply Fin.ext
  show k.1 / n * n + k.1 % n = k.1
  have h := Nat.div_add_mod k.1 n
  calc k.1 / n * n + k.1 % n = n * (k.1 / n) + k.1 % n := by ring
    _ = k.1 := h

/-- Source `window_partition(x, window_size)`: partitions `(B, C, H, W)` into
`(B, num_windows, C, w, w)` with `H = Hw * w`, `W = Ww * w` and
`num_windows = Hw * Ww`, via
`reshape(B, C, H // w, w, W // w, w) → permute(0, 1, 2, 4, 3, 5) →
reshape(B, C, num_windows, w, w) → permute(0, 2, 1, 3, 4)`. -/
def window_partition {B C Hw Ww w : ℕ} (x : Img B C (Hw * w) (Ww * w)) :
    Win5 B (Hw * Ww) C w w :=
  let r1 : Fin B → Fin C → Fin Hw → Fin w → Fin Ww → Fin w → ℚ :=
    fun b c i p j q => x b c (finPair i p) (finPair j q)
  let p1 : Fin B → Fin C → Fin Hw → Fin Ww → Fin w → Fin w → ℚ :=
    fun b c i j p q => r1 b c i p j q
  let r2 : Fin B → Fin C → Fin (Hw * Ww) → Fin w → Fin w → ℚ :=
    fun b c nw p q => p1 b c (finUnpair nw).1 (finUnpair nw).2 p q
  fun b nw c p q => r2 b c nw p q

/-- Source `window_unpartition(x, H, W)`: inverse reshaping of `window_partition`,
via `permute(0, 2, 1, 3, 4) → reshape(B, C, H // w, W // w, w, w) →
permute(0, 1, 2, 4, 3, 5) → reshape(B, C, H, W)`. -/
def window_unpartition {B C Hw Ww w : ℕ} (y : Win5 B (Hw * Ww) C w w) :
    Img B C (Hw * w) (Ww * w) :=
  let p0 : Fin B → Fin C → Fin (Hw * Ww) → Fin w → Fin w → ℚ :=
    fun b c nw p q => y b nw c p q
  let r1 : Fin B → Fin C → Fin Hw → Fin Ww → Fin w → Fin w → ℚ :=
    fun b c i j p q => p0 b c (finPair i j) p q
  let p1 : Fin B → Fin C → Fin Hw → Fin w → Fin Ww → Fin w → ℚ :=
    fun b c i p j q => r1 b c i j p q
  fun b c h wv =>
    p1 b c (finUnpair h).1 (finUnpair h).2 (finUnpair wv).1 (finUnpair wv).2

/-- Source `spatial_flatten(x)`: flattens `(*, C, H, W)` into `(*, H * W, C)` by
`x.flatten(-2).transpose(-2, -1)`; the leading dimensions are abstracted as
an arbitrary index type `α`. -/
def spatial_flatten {α : Type} {C H W : ℕ}
    (x : α → Fin C → Fin H → Fin W → ℚ) : α → Fin (H * W) → Fin C → ℚ :=
  fun a s c => x a c (finUnpair s).1 (finUnpair s).2

/-- Source `spatial_unflatten(x, H, W)`: unflattens `(*, H * W, C)` into
`(*, C, H, W)` by `x.transpose(-2, -1).unflatten(-1, (H, W))`. -/
def spatial_unflatten {α : Type} {C H W : ℕ}
    (x : α → Fin (H * W) → Fin C → ℚ) : α → Fin C → Fin H → Fin W → ℚ :=
  fun a c h wv => x a (finPair h wv) c

/-- C4: for every tensor `x` of shape `(B, C, H, W)` with `H = Hw * w` and
`W = Ww * w` (i.e. `H` and `W` divisible by the window size `w`),
`window_unpartition (window_partition x) = x`, and `window_unpartition` is an
exact inverse in the other composition order as well. -/
theorem C4_window_partition_roundtrip {B C Hw Ww w : ℕ}
    (x : Img B C (Hw * w) (Ww * w)) (y : Win5 B (Hw * Ww) C w w) :
    window_unpartition (window_partition x) = x ∧
    window_partition (window_unpartition y) = y := by
  constructor
  · funext b c h wv
    simp [window_partition, window_unpartition]
  · funext b nw c p q
    simp [window_partition, window_unpartition]

/-- C8: for every tensor `x` whose trailing three dimensions are
`(C, H, W)` (leading dimensions abstracted by `α`),
`spatial_unflatten (spatial_flatten x) = x`; the two conversions are mutually
inverse, and `spatial_flatten` places the spatial position `(h, w)` at the
raster-scan (row-major) sequence index `h * W + w`. -/
theorem C8_spatial_flatten_roundtrip {α : Type} {C H W : ℕ}
    (x : α → Fin C → Fin H → Fin W → ℚ) (y : α → Fin (H * W) → Fin C → ℚ) :
    spatial_unflatten (spatial_flatten x) = x ∧
    spatial_flatten (spatial_unflatten y) = y ∧
    ∀ (a : α) (c : Fin C) (h : Fin H) (wv : Fin W),
      spatial_flatten x a (finPair h wv) c = x a c h wv := by
  refine ⟨?_, ?_, ?_⟩
  · funext a c h wv
    simp [spatial_flatten, spatial_unflatten]
  · funext a s c
    simp [spatial_flatten, spatial_unflatten]
  · intro a c h wv
    simp [spatial_flatten]

/-- Abstract scalar primitives supplied by the tensor framework: `expf` is the
scalar exponential used by `F.softmax`, `geluf` the GELU activation of
`nn.GELU`, and `rsqrtf` the reciprocal square root used by `nn.LayerNorm`.
All statements quantify over an arbitrary such record, so they hold for the
true real-valued primitives in particular. -/
structure Scalars where
  expf : ℚ → ℚ
  geluf : ℚ → ℚ
  rsqrtf : ℚ → ℚ

/-- Parameters of `nn.Linear(inD, outD)`: weight `(outD, inD)` and bias. -/
structure LinearP (inD outD : ℕ) where
  w : Fin outD → Fin inD → ℚ
  b : Fin outD → ℚ

/-- Framework `nn.Linear` applied to the last axis: `y = x Aᵀ + b`. -/
def linApply {inD outD : ℕ} (p : LinearP inD outD) (v : Fin inD → ℚ) :
    Fin outD → ℚ :=
  fun o => (∑ i, v i * p.w o i) + p.b o

/-- Parameters of `nn.LayerNorm(C)`: elementwise affine weight and bias. -/
structure LayerNormP (C : ℕ) where
  w : Fin C → ℚ
  b : Fin C → ℚ

/-- Framework `nn.LayerNorm` over the last axis: `(x - mean) / sqrt(var + eps) * w + b`
with the biased variance and `eps = 1e-5`; the reciprocal square root is the
abstract `rsqrtf`. -/
def layerNorm {C : ℕ} (sc : Scalars) (p : LayerNormP C) (v : Fin C → ℚ) :
    Fin C → ℚ :=
  let mu : ℚ := (∑ i, v i) / C
  let variance : ℚ := (∑ i, (v i - mu) ^ 2) / C
  fun i => (v i - mu) * sc.rsqrtf (variance + 1 / 100000) * p.w i + p.b i

/-- Framework `F.softmax(v, -1)`: `exp (v i) / ∑ j, exp (v j)` with the abstract
exponential (the max-subtraction of the floating-point implementation is a
numerical-stability rewrite with identical real-number semantics). -/
def softmax {n : ℕ} (e : ℚ → ℚ) (v : Fin n → ℚ) : Fin n → ℚ :=
  fun i => e (v i) / ∑ j, e (v j)

/-- Parameters of `MultiHeadSelfAttention` with `num_heads = nh` heads of
`head_dim = hd` channels each (so `dim = nh * hd`, i.e. the channel count is
divisible by the head count): the fused `qkv = nn.Linear(dim, dim * 3)` and
the output `out = nn.Linear(dim, dim)`. -/
structure MHSAP (nh hd : ℕ) where
  qkv : LinearP (nh * hd) (3 * (nh * hd))
  out : LinearP (nh * hd) (nh * hd)

/-- The projection tensor of `MultiHeadSelfAttention.forward`:
`self.qkv(x).reshape(B, N, L, 3, num_heads, head_dim).permute(3, 0, 1, 4, 2, 5)`,
read at `(t, b, n, h, l, d)`; `t = 0, 1, 2` select query, key, value. -/
def qkvProj {B N L nh hd : ℕ} (p : MHSAP nh hd) (x : Seq4 B N L (nh * hd))
    (t : Fin 3) : Fin B → Fin N → Fin nh → Fin L → Fin hd → ℚ :=
  fun b n h l d => linApply p.qkv (x b n l) (finPair t (finPair h d))

/-- Pre-softmax scores of the standard (`transposed = False`) branch:
`torch.matmul(x[0] / head_dim, x[1].transpose(-2, -1) / head_dim)`. -/
def stdScores {B N L nh hd : ℕ} (p : MHSAP nh hd) (x : Seq4 B N L (nh * hd)) :
    Fin B → Fin N → Fin nh → Fin L → Fin L → ℚ :=
  fun b n h i j =>
    ∑ d, (qkvProj p x 0 b n h i d / (hd : ℚ)) * (qkvProj p x 1 b n h j d / (hd : ℚ))

/-- Pre-softmax scores of the transposed branch:
`torch.matmul(x[0].transpose(-2, -1) / L, x[1] / L)`. -/
def transScores {B N L nh hd : ℕ} (p : MHSAP nh hd) (x : Seq4 B N L (nh * hd)) :
    Fin B → Fin N → Fin nh → Fin hd → Fin hd → ℚ :=
  fun b n h i j =>
    ∑ l, (qkvProj p x 0 b n h l i / (L : ℚ)) * (qkvProj p x 1 b n h l j / (L : ℚ))

/-- Standard branch of `MultiHeadSelfAttention.forward`:
`matmul(softmax(scores, -1), x[2]).permute(0, 1, 3, 2, 4)`, heads flattened
by `flatten(-2)` and passed through the output projection. -/
def mhsaStd {B N L nh hd : ℕ} (sc : Scalars) (p : MHSAP nh hd)
    (x : Seq4 B N L (nh * hd)) : Seq4 B N L (nh * hd) :=
  fun b n l c =>
    linApply p.out
      (fun c' => ∑ j, softmax sc.expf (stdScores p x b n (finUnpair c').1 l) j *
        qkvProj p x 2 b n (finUnpair c').1 j (finUnpair c').2) c

/-- Transposed branch of `MultiHeadSelfAttention.forward`:
`matmul(softmax(scores, -1), x[2].transpose(-2, -1)).permute(0, 1, 4, 2, 3)`,
heads flattened by `flatten(-2)` and passed through the output projection. -/
def mhsaTrans {B N L nh hd : ℕ} (sc : Scalars) (p : MHSAP nh hd)
    (x : Seq4 B N L (nh * hd)) : Seq4 B N L (nh * hd) :=
  fun b n l c =>
    linApply p.out
      (fun c' => ∑ j, softmax sc.expf (transScores p x b n (finUnpair c').1 (finUnpair c').2) j *
        qkvProj p x 2 b n (finUnpair c').1 l j) c

/-- Source `MultiHeadSelfAttention.forward`, dispatching on the `transposed` flag. -/
def mhsaForward {B N L nh hd : ℕ} (sc : Scalars) (transposed : Bool)
    (p : MHSAP nh hd) (x : Seq4 B N L (nh * hd)) : Seq4 B N L (nh * hd) :=
  if transposed then mhsaTrans sc p x else mhsaStd sc p x

/-- Modelled from the spec sentence for C1: per-head pre-softmax scores equal
to the query-key product divided by `headDim` exactly once,
`(Q Kᵀ) / headDim`. -/
def specStdScoresOnce {B N L nh hd : ℕ} (p : MHSAP nh hd)
    (x : Seq4 B N L (nh * hd)) :
    Fin B → Fin N → Fin nh → Fin L → Fin L → ℚ :=
  fun b n h i j =>
    (∑ d, qkvProj p x 0 b n h i d * qkvProj p x 1 b n h j d) / (hd : ℚ)

/-- Amended spec formula for C1: per-head pre-softmax scores equal to the
query-key product with **each factor** divided by `headDim`, i.e.
`(Q Kᵀ) / headDim²`. -/
def specStdScoresSq {B N L nh hd : ℕ} (p : MHSAP nh hd)
    (x : Seq4 B N L (nh * hd)) :
    Fin B → Fin N → Fin nh → Fin L → Fin L → ℚ :=
  fun b n h i j =>
    (∑ d, qkvProj p x 0 b n h i d * qkvProj p x 1 b n h j d) / ((hd : ℚ) ^ 2)

/-- Spec formula for the standard attention pipeline with the given score
tensor: per head, `softmax(scores) · V` over the sequence axis, heads
flattened, then the output linear projection. -/
def specStdPipeline {B N L nh hd : ℕ} (sc : Scalars) (p : MHSAP nh hd)
    (x : Seq4 B N L (nh * hd))
    (scores : Fin B → Fin N → Fin nh → Fin L → Fin L → ℚ) :
    Seq4 B N L (nh * hd) :=
  fun b n l c =>
    linApply p.out
      (fun c' => ∑ j, softmax sc.expf (scores b n (finUnpair c').1 l) j *
        qkvProj p x 2 b n (finUnpair c').1 j (finUnpair c').2) c

/-- Modelled from the spec sentence for C2: per-head scores
`(Qᵀ K) / L²` with softmax over the contracted channel axis, multiplied by
`Vᵀ`, transposed back to `(B, N, L, heads, headDim)`, heads flattened, then
the output linear projection. -/
def specTransScores {B N L nh hd : ℕ} (p : MHSAP nh hd)
    (x : Seq4 B N L (nh * hd)) :
    Fin B → Fin N → Fin nh → Fin hd → Fin hd → ℚ :=
  fun b n h i j =>
    (∑ l, qkvProj p x 0 b n h l i * qkvProj p x 1 b n h l j) / ((L : ℚ) ^ 2)

/-- Spec formula for the transposed attention pipeline with the given score
tensor: per head, `softmax(scores) · Vᵀ` over the channel axis, result
transposed back, heads flattened, then the output linear projection. -/
def specTransPipeline {B N L nh hd : ℕ} (sc : Scalars) (p : MHSAP nh hd)
    (x : Seq4 B N L (nh * hd))
    (scores : Fin B → Fin N → Fin nh → Fin hd → Fin hd → ℚ) :
    Seq4 B N L (nh * hd) :=
  fun b n l c =>
    linApply p.out
      (fun c' => ∑ j, softmax sc.expf (scores b n (finUnpair c').1 (finUnpair c').2) j *
        qkvProj p x 2 b n (finUnpair c').1 l j) c

/-- Scaling by a factor in each of the two contracted operands equals scaling
the contraction by the square of the factor. -/
theorem sum_div_div_eq_div_sq {n : ℕ} (a b : Fin n → ℚ) (c : ℚ) :
    ∑ d, (a d / c) * (b d / c) = (∑ d, a d * b d) / c ^ 2 := by
  rw [Finset.sum_div]
  refine Finset.sum_congr rfl ?_
  intro d _
  rw [div_mul_div_comm, pow_two]

/-- Concrete `MultiHeadSelfAttention` parameters with one head of dimension 2:
all `qkv` and `out` weights are 1, biases 0. -/
def cexMHSAP : MHSAP 1 2 :=
  ⟨⟨fun _ _ => 1, fun _ => 0⟩, ⟨fun _ _ => 1, fun _ => 0⟩⟩

/-- Concrete input of shape `(1, 1, 1, 2)`: the constant vector `(1, 1)`. -/
def cexInput : Seq4 1 1 1 (1 * 2) :=
  fun _ _ _ _ => 1

/-- On the concrete data every projected query/key/value entry equals 2. -/
theorem cex_qkvProj_eq (t : Fin 3) (d : Fin 2) :
    qkvProj cexMHSAP cexInput t 0 0 0 0 d = 2 := by
  show (∑ i : Fin 2, cexInput 0 0 0 i * cexMHSAP.qkv.w (finPair t (finPair 0 d)) i) +
    cexMHSAP.qkv.b (finPair t (finPair 0 d)) = 2
  rw [Fin.sum_univ_two]
  norm_num [cexMHSAP, cexInput]

/-- C1 counterexample: with one head of dimension 2 and all weights 1 on the
constant input `(1, 1)`, the pre-softmax score computed by the standard
branch is `2` while the spec formula `(Q Kᵀ) / headDim` (division by
`headDim` exactly once) gives `4`: the code divides by `headDim` in both
factors of the score product, not once. -/
theorem C1_std_scores_cex :
    stdScores cexMHSAP cexInput 0 0 0 0 0 ≠
      specStdScoresOnce cexMHSAP cexInput 0 0 0 0 0 := by
  simp only [stdScores, specStdScoresOnce, cex_qkvProj_eq]
  rw [Fin.sum_univ_two, Fin.sum_univ_two]
  norm_num

/-- C1 (amended): for every input of shape `(B, N, L, C)` with
`C = nh * hd` divisible by the head count, the standard branch of
`MultiHeadSelfAttention.forward` computes, per head,
`softmax(Q Kᵀ / headDim²) · V` — the query-key product is divided by
`headDim` in **each** of the two factors, hence by `headDim²` in total —
with softmax over the contracted sequence axis, followed by flattening the
heads and the output linear projection. -/
theorem C1_mhsa_standard_amended {B N L nh hd : ℕ} (sc : Scalars)
    (p : MHSAP nh hd) (x : Seq4 B N L (nh * hd)) :
    stdScores p x = specStdScoresSq p x ∧
    mhsaForward sc false p x = specStdPipeline sc p x (specStdScoresSq p x) := by
  have hscores : stdScores p x = specStdScoresSq p x := by
    funext b n h i j
    exact sum_div_div_eq_div_sq (fun d => qkvProj p x 0 b n h i d)
      (fun d => qkvProj p x 1 b n h j d) (hd : ℚ)
  refine ⟨hscores, ?_⟩
  show mhsaStd sc p x = specStdPipeline sc p x (specStdScoresSq p x)
  funext b n l c
  simp only [mhsaStd, specStdPipeline, hscores]

/-- C2: for every input of shape `(B, N, L, C)` with `C = nh * hd` divisible
by the head count, the transposed branch of `MultiHeadSelfAttention.forward`
computes, per head, `softmax(Qᵀ K / L²) · Vᵀ` — `L` appears as a divisor in
both factors of the score product — with softmax over the contracted channel
axis, transposes the result back to `(B, N, L, heads, headDim)`, flattens the
heads and applies the output linear projection. -/
theorem C2_mhsa_transposed {B N L nh hd : ℕ} (sc : Scalars)
    (p : MHSAP nh hd) (x : Seq4 B N L (nh * hd)) :
    transScores p x = specTransScores p x ∧
    mhsaForward sc true p x = specTransPipeline sc p x (specTransScores p x) := by
  have hscores : transScores p x = specTransScores p x := by
    funext b n h i j
    exact sum_div_div_eq_div_sq (fun l => qkvProj p x 0 b n h l i)
      (fun l => qkvProj p x 1 b n h l j) (L : ℚ)
  refine ⟨hscores, ?_⟩
  show mhsaTrans sc p x = specTransPipeline sc p x (specTransScores p x)
  funext b n l c
  simp only [mhsaTrans, specTransPipeline, hscores]

/-- Adapter applying `spatial_flatten` on a rank-5 windowed tensor `(B, N, C, H, W)`,
leading dimensions `(B, N)`. -/
def sflat {B N C H W : ℕ} (x : Win5 B N C H W) : Seq4 B N (H * W) C :=
  fun b n => spatial_flatten (fun (_ : Unit) => x b n) ()

/-- Adapter applying `spatial_unflatten` on a rank-4 sequence tensor back to `(B, N, C, H, W)`. -/
def sunflat {B N C H W : ℕ} (x : Seq4 B N (H * W) C) : Win5 B N C H W :=
  fun b n => spatial_unflatten (fun (_ : Unit) => x b n) ()

/-- Framework `x.unsqueeze(1)`: `(B, C, H, W) → (B, 1, C, H, W)`. -/
def unsqueeze1 {B C H W : ℕ} (x : Img B C H W) : Win5 B 1 C H W :=
  fun b _ c h w => x b c h w

/-- Framework `x.squeeze(1)`: `(B, 1, C, H, W) → (B, C, H, W)`. -/
def squeeze1 {B C H W : ℕ} (x : Win5 B 1 C H W) : Img B C H W :=
  fun b c h w => x b 0 c h w

/-- Parameters of `AttentionBlock` with `dim = nh * hd`: the attention
module, the two MLP linear layers `nn.Linear(dim, dim * 4)` and
`nn.Linear(dim * 4, dim)` (4x channel expansion), and the two layer norms. -/
structure ABParams (nh hd : ℕ) where
  attn : MHSAP nh hd
  mlp1 : LinearP (nh * hd) ((nh * hd) * 4)
  mlp2 : LinearP ((nh * hd) * 4) (nh * hd)
  norm1 : LayerNormP (nh * hd)
  norm2 : LayerNormP (nh * hd)

/-- The `self.mlp` sequence: first linear layer, GELU, second linear layer. -/
def mlpApply {C : ℕ} (sc : Scalars) (m1 : LinearP C (C * 4))
    (m2 : LinearP (C * 4) C) (v : Fin C → ℚ) : Fin C → ℚ :=
  linApply m2 (fun j => sc.geluf (linApply m1 v j))

/-- The sequence core of `AttentionBlock.forward`:
`x = x + self.window_attention(self.norm1(x))` followed by
`x = x + self.mlp(self.norm2(x))`. -/
def seqBody {B N L nh hd : ℕ} (sc : Scalars) (transposed : Bool)
    (p : ABParams nh hd) (x : Seq4 B N L (nh * hd)) : Seq4 B N L (nh * hd) :=
  let x1 : Seq4 B N L (nh * hd) := fun b n l c =>
    x b n l c +
      mhsaForward sc transposed p.attn
        (fun b' n' l' => layerNorm sc p.norm1 (x b' n' l')) b n l c
  fun b n l c =>
    x1 b n l c + mlpApply sc p.mlp1 p.mlp2 (layerNorm sc p.norm2 (x1 b n l)) c

/-- An `AttentionBlock`: the stored `window_size` and `transposed`
configuration together with the learned parameters. -/
structure ABlock (nh hd : ℕ) where
  window_size : ℕ
  transposed : Bool
  p : ABParams nh hd

/-- The `transposed` branch of `AttentionBlock.forward`: `unsqueeze(1)`,
`spatial_flatten`, the attention/MLP core, `spatial_unflatten(H, W)`,
`squeeze(1)`.  Defined for **every** spatial shape `(H, W)`; the stored
`window_size` is not consulted. -/
def abFwdT {nh hd B H W : ℕ} (sc : Scalars) (blk : ABlock nh hd)
    (x : Img B (nh * hd) H W) : Img B (nh * hd) H W :=
  squeeze1 (sunflat (seqBody sc blk.transposed blk.p (sflat (unsqueeze1 x))))

/-- The windowed branch of `AttentionBlock.forward`: `window_partition`,
`spatial_flatten`, the attention/MLP core,
`spatial_unflatten(window_size, window_size)`, `window_unpartition(H, W)`.
Requires `H` and `W` divisible by `window_size` (here `H = Hw * ws`,
`W = Ww * ws`). -/
def abFwdW {nh hd B Hw Ww : ℕ} (sc : Scalars) (blk : ABlock nh hd)
    (x : Img B (nh * hd) (Hw * blk.window_size) (Ww * blk.window_size)) :
    Img B (nh * hd) (Hw * blk.window_size) (Ww * blk.window_size) :=
  window_unpartition (sunflat (seqBody sc blk.transposed blk.p (sflat (window_partition x))))

/-- Source `AttentionBlock.forward`, dispatching on the stored `transposed` flag. -/
def abForward {nh hd B Hw Ww : ℕ} (sc : Scalars) (blk : ABlock nh hd)
    (x : Img B (nh * hd) (Hw * blk.window_size) (Ww * blk.window_size)) :
    Img B (nh * hd) (Hw * blk.window_size) (Ww * blk.window_size) :=
  if blk.transposed then abFwdT sc blk x else abFwdW sc blk x

/-- C6: `AttentionBlock.forward` treats the whole map as one window when
`transposed = True` and partitions into `window_size x window_size` windows
when `transposed = False` (requiring `H`, `W` divisible by `window_size`);
in both cases it flattens to a sequence, computes
`x + attention(norm1 x)` then `x + mlp(norm2 x)` — the MLP being two linear
layers with 4x channel expansion (`LinearP C (C * 4)` then
`LinearP (C * 4) C`) and the non-linear activation `geluf` in between — and
reshapes back to `(B, C, H, W)`.  The block is a pure (stateless) function
of its input and parameters: it is a Lean function of `(sc, blk, x)` alone. -/
theorem C6_attention_block_structure {nh hd : ℕ} :
    (∀ (sc : Scalars) (ws : ℕ) (p : ABParams nh hd) {B Hw Ww : ℕ}
      (x : Img B (nh * hd) (Hw * ws) (Ww * ws)),
      abForward sc ⟨ws, true, p⟩ x =
        squeeze1 (sunflat (seqBody sc true p (sflat (unsqueeze1 x))))) ∧
    (∀ (sc : Scalars) (ws : ℕ) (p : ABParams nh hd) {B Hw Ww : ℕ}
      (x : Img B (nh * hd) (Hw * ws) (Ww * ws)),
      abForward sc ⟨ws, false, p⟩ x =
        window_unpartition (sunflat (seqBody sc false p (sflat (window_partition x))))) ∧
    (∀ (sc : Scalars) (transposed : Bool) (p : ABParams nh hd) {B N L : ℕ}
      (x : Seq4 B N L (nh * hd)),
      seqBody sc transposed p x = fun b n l c =>
        (fun y : Seq4 B N L (nh * hd) => fun b' n' l' c' =>
            y b' n' l' c' +
              mlpApply sc p.mlp1 p.mlp2 (layerNorm sc p.norm2 (y b' n' l')) c')
          (fun b' n' l' c' =>
            x b' n' l' c' +
              mhsaForward sc transposed p.attn
                (fun b'' n'' l'' => layerNorm sc p.norm1 (x b'' n'' l'')) b' n' l' c')
          b n l c) := by
  refine ⟨?_, ?_, ?_⟩
  · intro sc ws p B Hw Ww x
    rfl
  · intro sc ws p B Hw Ww x
    rfl
  · intro sc transposed p B N L x
    rfl

/-- C10: for `transposed = True` the block never partitions spatially — the
branch `abFwdT` is defined for every spatial shape `(H, W)` with no
divisibility requirement — and its output is independent of the stored
`window_size`: two blocks sharing parameters but differing in `window_size`
compute equal outputs on every input, and `AttentionBlock.forward`
dispatches to exactly this branch when `transposed = True`. -/
theorem C10_transposed_ignores_window_size {nh hd : ℕ} :
    (∀ (sc : Scalars) (ws1 ws2 : ℕ) (p : ABParams nh hd) {B H W : ℕ}
      (x : Img B (nh * hd) H W),
      abFwdT sc ⟨ws1, true, p⟩ x = abFwdT sc ⟨ws2, true, p⟩ x) ∧
    (∀ (sc : Scalars) (ws : ℕ) (p : ABParams nh hd) {B Hw Ww : ℕ}
      (x : Img B (nh * hd) (Hw * ws) (Ww * ws)),
      abForward sc ⟨ws, true, p⟩ x = abFwdT sc ⟨ws, true, p⟩ x) := by
  constructor
  · intro sc ws1 ws2 p B H W x
    rfl
  · intro sc ws p B Hw Ww x
    rfl

/-- Key list of the Python dict comprehension `{k: 0 for k in residual_groups}`:
duplicate keys collapse onto their first occurrence. -/
def pydedup : List ℕ → List ℕ
  | [] => []
  | a :: l => a :: pydedup (l.filter (fun x => x ≠ a))
termination_by l => l.length
decreasing_by
  simp only [List.length_cons]
  exact Nat.lt_succ_of_le (List.length_filter_le _ _)

/-- Membership is preserved by the dict-key dedup. -/
theorem mem_pydedup : ∀ (l : List ℕ) (p : ℕ), p ∈ pydedup l ↔ p ∈ l := by
  intro l
  induction l using pydedup.induct with
  | case1 => intro p; rw [pydedup]
  | case2 a l ih =>
    intro p
    rw [pydedup]
    by_cases hp : p = a
    · subst hp
      simp
    · simp only [List.mem_cons, ih, List.mem_filter]
      constructor
      · rintro (h | ⟨h, _⟩)
        · exact Or.inl h
        · exact Or.inr h
      · rintro (h | h)
        · exact Or.inl h
        · exact Or.inr ⟨h, by simpa using hp⟩

/-- The reset pass of `TransformerSR.forward`
(`for step in residual.keys(): if i % step == 0: residual[step] = x`),
on buffers instrumented with `Option`: `none` stands for the integer
placeholder `0` the dict is initialised with, which has never been
overwritten by a tensor. -/
def resetO {τ : Type} (keys : List ℕ) (i : ℕ) (x : τ) (buf : ℕ → Option τ) :
    ℕ → Option τ :=
  fun p => if p ∈ keys ∧ i % p = 0 then some x else buf p

/-- The add pass of `TransformerSR.forward`
(`for step in residual.keys(): if i % step == step - 1: x = x + residual[step]`)
on instrumented buffers: reading a buffer that still holds the integer
placeholder yields `none`. -/
def addsO {τ : Type} [Add τ] (keys : List ℕ) (i : ℕ) (x : τ)
    (buf : ℕ → Option τ) : Option τ :=
  keys.foldl
    (fun acc p =>
      if i % p = p - 1 then acc.bind (fun v => (buf p).map (fun r => v + r))
      else acc)
    (some x)

/-- The block loop of `TransformerSR.forward` over abstract block functions,
with instrumented residual buffers: reset pass, block application, add pass. -/
def srLoopO {τ : Type} [Add τ] (keys : List ℕ) :
    List (τ → τ) → ℕ → τ → (ℕ → Option τ) → Option τ
  | [], _, x, _ => some x
  | f :: fs, i, x, buf =>
    match addsO keys i (f x) (resetO keys i x buf) with
    | none => none
    | some y => srLoopO keys fs (i + 1) y (resetO keys i x buf)

/-- Total (ghost) version of the reset pass. -/
def resetT {τ : Type} (keys : List ℕ) (i : ℕ) (x : τ) (buf : ℕ → τ) : ℕ → τ :=
  fun p => if p ∈ keys ∧ i % p = 0 then x else buf p

/-- Total (ghost) version of the add pass. -/
def addsT {τ : Type} [Add τ] (keys : List ℕ) (i : ℕ) (x : τ) (buf : ℕ → τ) : τ :=
  keys.foldl (fun acc p => if i % p = p - 1 then acc + buf p else acc) x

/-- Total (ghost) version of the block loop. -/
def srLoopT {τ : Type} [Add τ] (keys : List ℕ) :
    List (τ → τ) → ℕ → τ → (ℕ → τ) → τ
  | [], _, x, _ => x
  | f :: fs, i, x, buf =>
    srLoopT keys fs (i + 1) (addsT keys i (f x) (resetT keys i x buf))
      (resetT keys i x buf)

/-- State (features, buffers) of the ghost loop after `n` iterations,
starting from features `x0` and buffers `b0`. -/
def srIter {τ : Type} [Add τ] (keys : List ℕ) (fs : List (τ → τ)) (x0 : τ)
    (b0 : ℕ → τ) : ℕ → τ × (ℕ → τ)
  | 0 => (x0, b0)
  | n + 1 =>
    (addsT keys n ((fs.getD n id) (srIter keys fs x0 b0 n).1)
       (resetT keys n (srIter keys fs x0 b0 n).1 (srIter keys fs x0 b0 n).2),
     resetT keys n (srIter keys fs x0 b0 n).1 (srIter keys fs x0 b0 n).2)

/-- If every buffer read at closing offset is a real tensor, the instrumented
add pass computes exactly the total add pass. -/
theorem addsO_eq_some {τ : Type} [Add τ] (i : ℕ) (bufO : ℕ → Option τ)
    (bufT : ℕ → τ) :
    ∀ (keys : List ℕ),
      (∀ p ∈ keys, i % p = p - 1 → bufO p = some (bufT p)) →
      ∀ (x : τ), addsO keys i x bufO = some (addsT keys i x bufT) := by
  intro keys
  induction keys with
  | nil => intro _ x; rfl
  | cons p ks ih =>
    intro hb x
    have hb' : ∀ q ∈ ks, i % q = q - 1 → bufO q = some (bufT q) :=
      fun q hq => hb q (List.mem_cons_of_mem _ hq)
    by_cases hc : i % p = p - 1
    · have hbp := hb p (List.mem_cons_self _ _) hc
      simp only [addsO, addsT, List.foldl_cons, hc, if_true, Option.some_bind, hbp,
        Option.map_some']
      exact ih hb' (x + bufT p)
    · simp only [addsO, addsT, List.foldl_cons, hc, if_false, ite_false]
      exact ih hb' x

/-- Correspondence between the instrumented and the total loop: if at entry
every buffer whose period is not freshly reset already corresponds, the
instrumented loop never reads a placeholder and computes the total loop. -/
theorem srLoopO_eq_some {τ : Type} [Add τ] (keys : List ℕ) :
    ∀ (fs : List (τ → τ)) (i : ℕ) (x : τ) (bO : ℕ → Option τ) (bT : ℕ → τ),
      (∀ p ∈ keys, i % p ≠ 0 → bO p = some (bT p)) →
      srLoopO keys fs i x bO = some (srLoopT keys fs i x bT) := by
  intro fs
  induction fs with
  | nil => intro i x bO bT _; rfl
  | cons f fs ih =>
    intro i x bO bT hcorr
    have hfull : ∀ p ∈ keys, resetO keys i x bO p = some (resetT keys i x bT p) := by
      intro p hp
      by_cases hz : i % p = 0
      · simp [resetO, resetT, hp, hz]
      · simp only [resetO, resetT, hp, hz, and_false, if_false, ite_false,
          true_and, and_true]
        exact hcorr p hp hz
    have hadds := addsO_eq_some i (resetO keys i x bO) (resetT keys i x bT) keys
      (fun p hp _ => hfull p hp) (f x)
    simp only [srLoopO, srLoopT, hadds]
    exact ih (i + 1) (addsT keys i (f x) (resetT keys i x bT)) (resetO keys i x bO)
      (resetT keys i x bT) (fun p hp _ => hfull p hp)

/-- Arithmetic of the closing index: while a period does not wrap, the index
of its last reset is unchanged. -/
theorem mod_arith_step {n p : ℕ} (h : (n + 1) % p ≠ 0) :
    (n + 1) - (n + 1) % p = n - n % p := by
  rcases Nat.eq_zero_or_pos p with hp | hp
  · subst hp
    simp [Nat.mod_zero]
  · have h1 : (n + 1) % p = (n % p + 1 % p) % p := Nat.add_mod n 1 p
    rcases Nat.lt_or_ge 1 p with h2 | h2
    · have h3 : 1 % p = 1 := Nat.mod_eq_of_lt h2
      have h4 : n % p < p := Nat.mod_lt _ hp
      rcases Nat.lt_or_ge (n % p + 1) p with h5 | h5
      · have h6 : (n + 1) % p = n % p + 1 := by
          rw [h1, h3, Nat.mod_eq_of_lt h5]
        have h7 : n % p ≤ n := Nat.mod_le _ _
        rw [h6]
        omega
      · have h6 : n % p + 1 = p := by omega
        have h7 : (n + 1) % p = 0 := by rw [h1, h3, h6, Nat.mod_self]
        exact absurd h7 h
    · have h3 : p = 1 := by omega
      subst h3
      simp [Nat.mod_one] at h

/-- Buffer-content invariant of the ghost loop: at the start of iteration
`n`, after this iteration's reset pass, the buffer of period `p` holds the
features that entered the loop at index `n - n % p` (the most recent reset
index for `p`). -/
theorem srIter_buf {τ : Type} [Add τ] (keys : List ℕ) (fs : List (τ → τ))
    (x0 : τ) (b0 : ℕ → τ) (p : ℕ) (hp : p ∈ keys) :
    ∀ (n : ℕ),
      resetT keys n (srIter keys fs x0 b0 n).1 (srIter keys fs x0 b0 n).2 p =
        (srIter keys fs x0 b0 (n - n % p)).1 := by
  intro n
  induction n with
  | zero =>
    simp [resetT, srIter, hp, Nat.zero_mod]
  | succ n ih =>
    by_cases hz : (n + 1) % p = 0
    · simp only [resetT, hp, hz, and_self, if_true, true_and]
      rw [Nat.sub_zero]
    · simp only [resetT, hp, hz, and_false, if_false, true_and, ite_false]
      have hstep : (srIter keys fs x0 b0 (n + 1)).2 =
          resetT keys n (srIter keys fs x0 b0 n).1 (srIter keys fs x0 b0 n).2 := rfl
      rw [hstep, mod_arith_step hz]
      exact ih

/-- The ghost loop started at index 0 computes the state reached after
`fs.length` iterations. -/
theorem srLoopT_eq_srIter {τ : Type} [Add τ] (keys : List ℕ)
    (fs : List (τ → τ)) (x0 : τ) (b0 : ℕ → τ) :
    srLoopT keys fs 0 x0 b0 = (srIter keys fs x0 b0 fs.length).1 := by
  have aux : ∀ (m n : ℕ), n + m = fs.length →
      srLoopT keys (fs.drop n) n (srIter keys fs x0 b0 n).1
          (srIter keys fs x0 b0 n).2 =
        (srIter keys fs x0 b0 fs.length).1 := by
    intro m
    induction m with
    | zero =>
      intro n hn
      have hn' : n = fs.length := by omega
      subst hn'
      rw [List.drop_length]
      rfl
    | succ m ih =>
      intro n hn
      have hlt : n < fs.length := by omega
      rw [List.drop_eq_getElem_cons hlt]
      simp only [srLoopT]
      rw [← List.getD_eq_getElem fs id hlt]
      exact ih (n + 1) (by omega)
  have h := aux fs.length 0 (Nat.zero_add _)
  rw [List.drop_zero] at h
  exact h

/-- C3: the residual skip policy of `TransformerSR.forward`.  For every
configured period `p` (a dict key), the reset pass stores the current
features exactly when `i % p = 0` and leaves the buffer unchanged otherwise;
keys not in the dict are untouched, so each period is tracked independently
with its own stored tensor.  The add pass for a single period adds the
stored buffer exactly when `i % p = p - 1`.  With `residual_groups = [2]`
and 4 block-pairs `f0, f1, f2, f3`, the loop output equals the hand-unrolled
reference in which the features captured at indices 0 and 2 are added to the
outputs of the blocks at indices 1 and 3 respectively. -/
theorem C3_residual_policy {τ : Type} [Add τ] :
    (∀ (keys : List ℕ) (i : ℕ) (x : τ) (buf : ℕ → Option τ) (p : ℕ),
      p ∈ keys →
      resetO keys i x buf p = if i % p = 0 then some x else buf p) ∧
    (∀ (keys : List ℕ) (i : ℕ) (x : τ) (buf : ℕ → Option τ) (p : ℕ),
      p ∉ keys → resetO keys i x buf p = buf p) ∧
    (∀ (p i : ℕ) (x : τ) (buf : ℕ → Option τ),
      addsO [p] i x buf =
        if i % p = p - 1 then (buf p).map (fun r => x + r) else some x) ∧
    (∀ (f0 f1 f2 f3 : τ → τ) (x : τ),
      srLoopO [2] [f0, f1, f2, f3] 0 x (fun _ => none) =
        some (f3 (f2 (f1 (f0 x) + x)) + (f1 (f0 x) + x))) := by
  refine ⟨?_, ?_, ?_, ?_⟩
  · intro keys i x buf p hp
    by_cases hz : i % p = 0
    · simp [resetO, hp, hz]
    · simp [resetO, hp, hz]
  · intro keys i x buf p hp
    simp [resetO, hp]
  · intro p i x buf
    by_cases hc : i % p = p - 1
    · simp [addsO, hc]
    · simp [addsO, hc]
  · intro f0 f1 f2 f3 x
    rfl

/-- C3 witness: the reset characterisation evaluated at the concrete state
`keys = [2], i = 0, x = 5, empty buffer` for the member period `2` and the
non-member period `3`. -/
theorem C3_residual_policy_witness :
    resetO [2] 0 (5 : ℚ) (fun _ => none) 2 =
        (if 0 % 2 = 0 then some (5 : ℚ) else none) ∧
    resetO [2] 0 (5 : ℚ) (fun _ => none) 3 = none := by
  constructor
  · exact (C3_residual_policy (τ := ℚ)).1 [2] 0 5 (fun _ => none) 2 (by decide)
  · exact (C3_residual_policy (τ := ℚ)).2.1 [2] 0 5 (fun _ => none) 3 (by decide)

/-- C9: the never-placeholder invariant of `TransformerSR.forward`.  First
conjunct: for every key list of periods (all at least 1, as the Python
modulus requires) the instrumented loop — whose buffers start as `none`,
standing for the integer placeholder `0` of
`residual = {k: 0 for k in self.residual_groups}`, and which returns `none`
the moment an add pass would read a placeholder — returns `some` result,
equal to the ghost loop from an arbitrary initial buffer assignment: the
placeholder is never added, because the reset at index `i - (i % p)` always
precedes the first close of period `p`.  Second conjunct: whenever the add
pass fires for period `p` after block `n` (that is, `n % p = p - 1`), the
buffer it reads holds exactly the features that entered block `n - (p - 1)`
of the same run.  Third conjunct: the ghost loop computes the iterated
per-block state, so the previous conjunct speaks about real loop states. -/
theorem C9_residual_never_placeholder {τ : Type} [Add τ] :
    (∀ (keys : List ℕ) (fs : List (τ → τ)) (x0 : τ) (bT : ℕ → τ),
      (∀ p ∈ keys, 1 ≤ p) →
      srLoopO keys fs 0 x0 (fun _ => none) = some (srLoopT keys fs 0 x0 bT)) ∧
    (∀ (keys : List ℕ) (fs : List (τ → τ)) (x0 : τ) (b0 : ℕ → τ) (p n : ℕ),
      p ∈ keys → 1 ≤ p → n < fs.length → n % p = p - 1 →
      resetT keys n (srIter keys fs x0 b0 n).1 (srIter keys fs x0 b0 n).2 p =
        (srIter keys fs x0 b0 (n - (p - 1))).1) ∧
    (∀ (keys : List ℕ) (fs : List (τ → τ)) (x0 : τ) (b0 : ℕ → τ),
      srLoopT keys fs 0 x0 b0 = (srIter keys fs x0 b0 fs.length).1) := by
  refine ⟨?_, ?_, ?_⟩
  · intro keys fs x0 bT _
    exact srLoopO_eq_some keys fs 0 x0 (fun _ => none) bT
      (fun p _ h0 => absurd (Nat.zero_mod p) h0)
  · intro keys fs x0 b0 p n hp _ _ hclose
    have h := srIter_buf keys fs x0 b0 p hp n
    rw [hclose] at h
    exact h
  · intro keys fs x0 b0
    exact srLoopT_eq_srIter keys fs x0 b0
/-- C9 witness: the invariant applied at `keys = [2]`, two identity blocks
over `ℚ`, start value 3: the instrumented loop returns `some` of the ghost
value, and at the closing index `n = 1` of period `2` the buffer read equals
the features that entered block `0`. -/
theorem C9_residual_never_placeholder_witness :
    srLoopO [2] [(id : ℚ → ℚ), id] 0 (3 : ℚ) (fun _ => none) =
        some (srLoopT [2] [(id : ℚ → ℚ), id] 0 (3 : ℚ) (fun _ => 0)) ∧
    resetT [2] 1 (srIter [2] [(id : ℚ → ℚ), id] 3 (fun _ => 0) 1).1
        (srIter [2] [(id : ℚ → ℚ), id] 3 (fun _ => 0) 1).2 2 =
      (srIter [2] [(id : ℚ → ℚ), id] 3 (fun _ => 0) (1 - (2 - 1))).1 := by
  constructor
  · exact (C9_residual_never_placeholder (τ := ℚ)).1 [2] [id, id] 3 (fun _ => 0)
      (by decide)
  · exact (C9_residual_never_placeholder (τ := ℚ)).2.1 [2] [id, id] 3 (fun _ => 0)
      2 1 (by decide) (by decide) (by simp) (by decide)

/-- Parameters of `nn.Conv2d` with square kernel size `k`. -/
structure ConvP (cin cout k : ℕ) where
  w : Fin cout → Fin cin → Fin k → Fin k → ℚ
  b : Fin cout → ℚ

/-- Zero-padded read of a feature map: coordinates are shifted by the padding
(1), so `(a, e)` addresses the original pixel `(a - 1, e - 1)` and reads 0
outside the map. -/
def padGet {B C H W : ℕ} (x : Img B C H W) (b : Fin B) (c : Fin C)
    (a e : ℕ) : ℚ :=
  if h : 1 ≤ a ∧ a ≤ H ∧ 1 ≤ e ∧ e ≤ W then
    x b c ⟨a - 1, by omega⟩ ⟨e - 1, by omega⟩
  else 0

/-- Framework `nn.Conv2d(cin, cout, kernel_size=3, padding=1)`: same-size convolution
with zero padding 1. -/
def conv3x3 {B cin cout H W : ℕ} (p : ConvP cin cout 3) (x : Img B cin H W) :
    Img B cout H W :=
  fun b o h w =>
    (∑ c, ∑ i, ∑ j, p.w o c i j * padGet x b c (h.1 + i.1) (w.1 + j.1)) + p.b o

/-- Framework `nn.Conv2d(cin, cout, kernel_size=2, stride=2)`: halves each even
spatial dimension. -/
def conv2x2s2 {B cin cout Hh Wh : ℕ} (p : ConvP cin cout 2)
    (x : Img B cin (2 * Hh) (2 * Wh)) : Img B cout Hh Wh :=
  fun b o h w =>
    (∑ c, ∑ i : Fin 2, ∑ j : Fin 2,
      p.w o c i j *
        x b c ⟨2 * h.1 + i.1, by have := h.2; have := i.2; omega⟩
          ⟨2 * w.1 + j.1, by have := w.2; have := j.2; omega⟩) + p.b o

/-- Framework `nn.PixelShuffle(f)`: rearranges `(B, C * f², H, W)` into
`(B, C, H * f, W * f)` by `reshape(B, C, f, f, H, W) →
permute(B, C, H, f, W, f) → reshape(B, C, H * f, W * f)`. -/
def pixelShuffle {B C f H W : ℕ} (x : Img B (C * (f * f)) H W) :
    Img B C (H * f) (W * f) :=
  let r1 : Fin B → Fin C → Fin f → Fin f → Fin H → Fin W → ℚ :=
    fun b c i j h w => x b (finPair c (finPair i j)) h w
  let p1 : Fin B → Fin C → Fin H → Fin f → Fin W → Fin f → ℚ :=
    fun b c h i w j => r1 b c i j h w
  fun b c hh ww =>
    p1 b c (finUnpair hh).1 (finUnpair hh).2 (finUnpair ww).1 (finUnpair ww).2

/-- One element of `TransformerSR.blocks`: the
`nn.Sequential(AttentionBlock(dim, False, ...), AttentionBlock(dim, True, ...))`
pair — a windowed block followed by a full-image transposed block. -/
def blockPairFwd {nh hd B Hw Ww : ℕ} (sc : Scalars) (ws : ℕ)
    (pr : ABParams nh hd × ABParams nh hd)
    (x : Img B (nh * hd) (Hw * ws) (Ww * ws)) :
    Img B (nh * hd) (Hw * ws) (Ww * ws) :=
  abForward sc ⟨ws, true, pr.2⟩ (abForward sc ⟨ws, false, pr.1⟩ x)

/-- Parameters of `TransformerSR` with `dim = nh * hd`, window size `ws`,
upscale factor `f`: the input convolution, the block pairs, the residual
periods, and the output convolution to `f² * out_channels` channels feeding
the pixel shuffle. -/
structure SRP (nh hd ws f cin cout : ℕ) where
  residual_groups : List ℕ
  in_conv : ConvP cin (nh * hd) 3
  blocks : List (ABParams nh hd × ABParams nh hd)
  out_conv : ConvP (nh * hd) (cout * (f * f)) 3

/-- Source `TransformerSR.forward`: subtract 0.5, input convolution, the block-pair
loop with periodic residual buffers (instrumented with `Option`: the result
is `none` if an add pass would ever read the integer placeholder the
residual dict is initialised with), output convolution, pixel shuffle, add
0.5 back. -/
def srForward {nh hd ws f cin cout : ℕ} (sc : Scalars)
    (P : SRP nh hd ws f cin cout) {B Hw Ww : ℕ}
    (x : Img B cin (Hw * ws) (Ww * ws)) :
    Option (Img B cout ((Hw * ws) * f) ((Ww * ws) * f)) :=
  (srLoopO (pydedup P.residual_groups)
      (P.blocks.map (fun pr => blockPairFwd sc ws pr)) 0
      (conv3x3 P.in_conv (fun b c h w => x b c h w - 1 / 2))
      (fun _ => none)).map
    (fun y => fun b c h w => pixelShuffle (conv3x3 P.out_conv y) b c h w + 1 / 2)

/-- C5: for every input of shape `(B, 3, H, W)` with `H = Hw * ws` and
`W = Ww * ws` divisible by the window size, `H` and `W` divisible by the
factor `f`, and every valid configuration (all residual periods at least 1,
as the Python modulus requires), `TransformerSR.forward` returns a tensor of
shape `(B, out_channels, H * f, W * f)` — the type of the result — equal to:
subtract 0.5, input convolution, the (ghost) block-pair loop, convolution to
`f² * out_channels` channels, pixel shuffle, add 0.5 back.  Second conjunct:
the pixel shuffle places channel `c * f² + i * f + j` of spatial position
`(h, w)` at channel `c` of position `(h * f + i, w * f + j)` — a
`factor × factor` spatial tile per group of `f²` channels. -/
theorem C5_transformer_sr_pipeline {nh hd ws f cin cout : ℕ} (sc : Scalars)
    (P : SRP nh hd ws f cin cout) {B Hw Ww : ℕ}
    (x : Img B cin (Hw * ws) (Ww * ws))
    (_hgroups : ∀ p ∈ P.residual_groups, 1 ≤ p)
    (_hf1 : f ∣ Hw * ws) (_hf2 : f ∣ Ww * ws) :
    srForward sc P x =
      some (fun b c h w =>
        pixelShuffle (conv3x3 P.out_conv
          (srLoopT (pydedup P.residual_groups)
            (P.blocks.map (fun pr => blockPairFwd sc ws pr)) 0
            (conv3x3 P.in_conv (fun b' c' h' w' => x b' c' h' w' - 1 / 2))
            (fun _ => conv3x3 P.in_conv (fun b' c' h' w' => x b' c' h' w' - 1 / 2))))
          b c h w + 1 / 2) ∧
    (∀ (b : Fin B) (c : Fin cout) (y : Img B (cout * (f * f)) (Hw * ws) (Ww * ws))
      (h : Fin (Hw * ws)) (i : Fin f) (wv : Fin (Ww * ws)) (j : Fin f),
      pixelShuffle y b c (finPair h i) (finPair wv j) =
        y b (finPair c (finPair i j)) h wv) := by
  constructor
  · have h := srLoopO_eq_some (pydedup P.residual_groups)
      (P.blocks.map (fun pr => blockPairFwd sc ws pr)) 0
      (conv3x3 P.in_conv (fun b c h w => x b c h w - 1 / 2)) (fun _ => none)
      (fun _ => conv3x3 P.in_conv (fun b c h w => x b c h w - 1 / 2))
      (fun p _ h0 => absurd (Nat.zero_mod p) h0)
    simp only [srForward, h, Option.map_some']
  · intro b c y h i wv j
    simp [pixelShuffle]

/-- Identity scalar primitives, used only to instantiate witnesses. -/
def scId : Scalars := ⟨fun q => q, fun q => q, fun q => q⟩

/-- Minimal concrete `TransformerSR` configuration: one channel, one head of
dimension 1, window size 1, factor 1, no block pairs, residual period 1. -/
def witSRP : SRP 1 1 1 1 1 1 :=
  ⟨[1], ⟨fun _ _ _ _ => 0, fun _ => 0⟩, [], ⟨fun _ _ _ _ => 0, fun _ => 0⟩⟩

/-- Concrete all-zero `(1, 1, 1, 1)` input. -/
def xZero : Img 1 1 (1 * 1) (1 * 1) := fun _ _ _ _ => 0

/-- C5 witness: the pipeline theorem applied to the minimal concrete model
and input, with all hypotheses discharged by computation. -/
theorem C5_transformer_sr_pipeline_witness :
    srForward scId witSRP xZero =
      some (fun b c h w =>
        pixelShuffle (conv3x3 witSRP.out_conv
          (srLoopT (pydedup witSRP.residual_groups)
            (witSRP.blocks.map (fun pr => blockPairFwd scId 1 pr)) 0
            (conv3x3 witSRP.in_conv (fun b' c' h' w' => xZero b' c' h' w' - 1 / 2))
            (fun _ => conv3x3 witSRP.in_conv
              (fun b' c' h' w' => xZero b' c' h' w' - 1 / 2))))
          b c h w + 1 / 2) ∧
    (∀ (b : Fin 1) (c : Fin 1) (y : Img 1 (1 * (1 * 1)) (1 * 1) (1 * 1))
      (h : Fin (1 * 1)) (i : Fin 1) (wv : Fin (1 * 1)) (j : Fin 1),
      pixelShuffle y b c (finPair h i) (finPair wv j) =
        y b (finPair c (finPair i j)) h wv) :=
  C5_transformer_sr_pipeline scId witSRP xZero (by decide) (by decide) (by decide)

/-- Description of one layer appended to `Classifier.blocks` during
construction. -/
inductive LayerDesc where
  | conv3 (cin cout : ℕ)
  | conv2s2 (cin cout : ℕ)
  | attn (dim : ℕ) (transposed : Bool) (ws : ℕ)
  | avgpool
  | flattenL
  | linearL (cin cout : ℕ)
deriving DecidableEq

/-- The two `AttentionBlock`s appended per inner iteration of the
`Classifier` constructor (`for _ in range(groups[i])`): a windowed block
followed by a transposed (full-image) block, repeated `g` times. -/
def pairsDesc (d ws : ℕ) : ℕ → List LayerDesc
  | 0 => []
  | n + 1 => LayerDesc.attn d false ws :: LayerDesc.attn d true ws :: pairsDesc d ws n

/-- The stage loop of the `Classifier` constructor
(`for i in range(len(groups))`): for each stage, a stride-2 kernel-2
convolution from `dims[i-1]` to `dims[i]` when `i > 0`, then `groups[i]`
block-pairs at `dims[i]` channels and window size `window_size // 2**i`. -/
def stagesDesc (dims : List ℕ) (ws : ℕ) : List ℕ → ℕ → List LayerDesc
  | [], _ => []
  | g :: gs, i =>
    (if 0 < i then [LayerDesc.conv2s2 (dims.getD (i - 1) 0) (dims.getD i 0)]
     else []) ++
    pairsDesc (dims.getD i 0) (ws / 2 ^ i) g ++ stagesDesc dims ws gs (i + 1)

/-- The full layer list built by the `Classifier` constructor: initial 3x3
convolution to `dims[0]`, the stages, then adaptive average pooling,
flattening, and the linear head from `dims[-1]` to the class count. -/
def classifierLayers (groups dims : List ℕ) (ws ncls cin : ℕ) : List LayerDesc :=
  LayerDesc.conv3 cin (dims.getD 0 0) ::
    stagesDesc dims ws groups 0 ++
      [LayerDesc.avgpool, LayerDesc.flattenL,
       LayerDesc.linearL (dims.getD (dims.length - 1) 0) ncls]

/-- Modelled from the spec sentence for C7: stage `i` consists of a stride-2
kernel-2 downsampling convolution to `dims[i]` unless it is the first stage,
followed by `groups[i]` block-pairs (windowed + full-image) at window size
`window_size / 2^i`. -/
def stageSpec (dims : List ℕ) (ws : ℕ) (i g : ℕ) : List LayerDesc :=
  (if i = 0 then []
   else [LayerDesc.conv2s2 (dims.getD (i - 1) 0) (dims.getD i 0)]) ++
  (List.replicate g [LayerDesc.attn (dims.getD i 0) false (ws / 2 ^ i),
    LayerDesc.attn (dims.getD i 0) true (ws / 2 ^ i)]).flatten

/-- Concatenation of the spec-side stages over indexed groups. -/
def catStages (dims : List ℕ) (ws : ℕ) : List (ℕ × ℕ) → List LayerDesc
  | [] => []
  | ig :: rest => stageSpec dims ws ig.1 ig.2 ++ catStages dims ws rest

/-- The constructor's inner pair loop produces exactly `g` copies of the
windowed/full-image block pair. -/
theorem pairsDesc_eq_replicate (d ws : ℕ) :
    ∀ (g : ℕ), pairsDesc d ws g =
      (List.replicate g [LayerDesc.attn d false ws, LayerDesc.attn d true ws]).flatten := by
  intro g
  induction g with
  | zero => rfl
  | succ n ih => simp [pairsDesc, List.replicate_succ, ih]

/-- The constructor's stage loop from index `i` computes the spec-side
stages over the groups indexed from `i`. -/
theorem stagesDesc_eq_catStages (dims : List ℕ) (ws : ℕ) :
    ∀ (gs : List ℕ) (i : ℕ),
      stagesDesc dims ws gs i = catStages dims ws (List.enumFrom i gs) := by
  intro gs
  induction gs with
  | nil => intro i; rfl
  | cons g gs ih =>
    intro i
    show _ ++ _ ++ _ = stageSpec dims ws i g ++ catStages dims ws (List.enumFrom (i + 1) gs)
    rw [← ih (i + 1)]
    simp only [stageSpec, pairsDesc_eq_replicate]
    rcases Nat.eq_zero_or_pos i with hi | hi
    · subst hi
      simp
    · have hi' : ¬i = 0 := by omega
      simp [hi, hi', List.append_assoc]

/-- Global average pooling `nn.AdaptiveAvgPool2d(1)`: the mean over the
spatial positions, at output size `1 x 1`. -/
def avgPool {B C H W : ℕ} (x : Img B C H W) : Img B C 1 1 :=
  fun b c _ _ => (∑ h, ∑ w, x b c h w) / ((H : ℚ) * (W : ℚ))

/-- Framework `nn.Flatten()` on a `(B, C, 1, 1)` tensor: `(B, C)`. -/
def flatten2 {B C : ℕ} (x : Img B C 1 1) : Fin B → Fin C → ℚ :=
  fun b c => x b c 0 0

/-- Parameters of the concrete `Classifier` configuration
`groups = [1, 1]`, `dims = [nh * hd1, nh * hd2]`, `window_size = 8`:
input convolution, stage-1 block pair, downsampling convolution, stage-2
block pair, and the linear head. -/
structure ClassifierP (nh hd1 hd2 ncls : ℕ) where
  conv_in : ConvP 3 (nh * hd1) 3
  s1w : ABParams nh hd1
  s1t : ABParams nh hd1
  down : ConvP (nh * hd1) (nh * hd2) 2
  s2w : ABParams nh hd2
  s2t : ABParams nh hd2
  fc : LinearP (nh * hd2) ncls

/-- Source `Classifier.forward` for the concrete configuration `groups = [1, 1]`,
`dims = [nh * hd1, nh * hd2]`, `window_size = 8`, on inputs `(B, 3, 64, 64)`:
subtract 0.5, then apply every stored block in order. -/
def classifierFwd {nh hd1 hd2 ncls : ℕ} (sc : Scalars)
    (P : ClassifierP nh hd1 hd2 ncls) {B : ℕ} (x : Img B 3 64 64) :
    Fin B → Fin ncls → ℚ :=
  let x0 : Img B 3 64 64 := fun b c h w => x b c h w - 1 / 2
  let x1 := conv3x3 P.conv_in x0
  let x2 := @abForward nh hd1 B 8 8 sc ⟨8, false, P.s1w⟩ x1
  let x3 := @abForward nh hd1 B 8 8 sc ⟨8, true, P.s1t⟩ x2
  let x4 := @conv2x2s2 B (nh * hd1) (nh * hd2) 32 32 P.down x3
  let x5 := @abForward nh hd2 B 8 8 sc ⟨4, false, P.s2w⟩ x4
  let x6 := @abForward nh hd2 B 8 8 sc ⟨4, true, P.s2t⟩ x5
  fun b o => linApply P.fc (flatten2 (avgPool x6) b) o

/-- C7: structure of `Classifier`.  (1) The constructor's stage loop builds,
for every stage index `i`, the spec-side stage: a stride-2 kernel-2
convolution changing the channel count to `dims[i]` exactly when `i > 0`,
then `groups[i]` windowed/full-image block-pairs at window size
`window_size / 2^i`.  (2) The full layer list is the initial convolution,
the stages, then global average pooling, flattening, and the linear head.
(3) The stage window size is halved at each stage.  (4) For
`groups = [1, 1]`, `dims = [16, 32]`, `window_size = 8` the built layer list
is exactly the nine expected layers, with window sizes 8 and 4.  (5) The
typed forward pass on `(B, 3, 64, 64)` inputs — whose result has type
`Fin B → Fin ncls → ℚ`, i.e. shape `(B, num_classes)`, in particular
`(1, num_classes)` for `B = 1` — is the stated composition ending in global
average pooling, flattening and the linear projection.  (6) The pooling
layer computes the spatial mean. -/
theorem C7_classifier_stages :
    (∀ (dims : List ℕ) (ws : ℕ) (gs : List ℕ) (i : ℕ),
      stagesDesc dims ws gs i = catStages dims ws (List.enumFrom i gs)) ∧
    (∀ (groups dims : List ℕ) (ws ncls cin : ℕ),
      classifierLayers groups dims ws ncls cin =
        LayerDesc.conv3 cin (dims.getD 0 0) ::
          catStages dims ws (List.enumFrom 0 groups) ++
            [LayerDesc.avgpool, LayerDesc.flattenL,
             LayerDesc.linearL (dims.getD (dims.length - 1) 0) ncls]) ∧
    (∀ (ws i : ℕ), ws / 2 ^ (i + 1) = ws / 2 ^ i / 2) ∧
    (∀ (ncls : ℕ), classifierLayers [1, 1] [16, 32] 8 ncls 3 =
      [LayerDesc.conv3 3 16,
       LayerDesc.attn 16 false 8, LayerDesc.attn 16 true 8,
       LayerDesc.conv2s2 16 32,
       LayerDesc.attn 32 false 4, LayerDesc.attn 32 true 4,
       LayerDesc.avgpool, LayerDesc.flattenL, LayerDesc.linearL 32 ncls]) ∧
    (∀ (sc : Scalars) {nh hd1 hd2 ncls B : ℕ} (P : ClassifierP nh hd1 hd2 ncls)
      (x : Img B 3 64 64),
      classifierFwd sc P x = fun b o =>
        linApply P.fc
          (flatten2 (avgPool
            (@abForward nh hd2 B 8 8 sc ⟨4, true, P.s2t⟩
              (@abForward nh hd2 B 8 8 sc ⟨4, false, P.s2w⟩
                (@conv2x2s2 B (nh * hd1) (nh * hd2) 32 32 P.down
                  (@abForward nh hd1 B 8 8 sc ⟨8, true, P.s1t⟩
                    (@abForward nh hd1 B 8 8 sc ⟨8, false, P.s1w⟩
                      (conv3x3 P.conv_in
                        (fun b' c' h' w' => x b' c' h' w' - 1 / 2)))))))) b) o) ∧
    (∀ {B C H W : ℕ} (y : Img B C H W) (b : Fin B) (c : Fin C) (u v : Fin 1),
      avgPool y b c u v = (∑ h, ∑ w, y b c h w) / ((H : ℚ) * (W : ℚ))) := by
  refine ⟨stagesDesc_eq_catStages, ?_, ?_, ?_, ?_, ?_⟩
  · intro groups dims ws ncls cin
    simp only [classifierLayers, stagesDesc_eq_catStages]
  · intro ws i
    rw [pow_succ, Nat.div_div_eq_div_mul]
  · intro ncls
    rfl
  · intro sc nh hd1 hd2 ncls B P x
    rfl
  · intro B C H W y b c u v
    rfl
